import Mathlib

/-!
Verification of the sourcemap-harvest path engine (src/index.js and the
multi-URL variant src/unnamed/part_000; the two files share every function
verified here, character for character).

Strings are modelled as Lean `String` (a wrapper around `List Char`), and
the JavaScript / Node.js built-ins the code calls are embedded as explicit
Lean functions over `List Char`:

  * `String.prototype.split` with a character class  -> `splitChars`
  * `Array.prototype.join` / path joining with `/`   -> `joinSep`
  * `String.prototype.startsWith` / anchored regex   -> `leadsWith`
  * `String.prototype.includes`                      -> `hasSub`
  * `path.posix.resolve` (POSIX: `path.sep` is `/`)  -> `resolveChain`
  * `path.posix.basename`                            -> `nodeBasename`
  * `path.posix.join`                                -> `posixJoin`

Network and URL primitives (`fetchUrl`, `new URL`, `JSON.parse`) are
side-effecting or platform collaborators; they enter the model as explicit
function parameters (`fetch`, `mkURL`, `resolveURL`, `parse`) whose
`Option`/`none` value models a thrown exception or rejected promise, as the
spec treats them (external collaborators specified at their interface).
-/

/-- JavaScript `hay.startsWith(needle)` on character lists (also used for the
anchored regexes `/^pat/` of the source, whose patterns are all literal). -/
def leadsWith : List Char → List Char → Bool
  | _, [] => true
  | [], _ :: _ => false
  | c :: cs, d :: ds => c == d && leadsWith cs ds

/-- Case-insensitive variant, for the `/i`-flagged anchored regexes; the
pattern is given in lower case. -/
def leadsWithCI (l pat : List Char) : Bool :=
  leadsWith (l.map Char.toLower) pat

/-- JavaScript `hay.includes(needle)`: substring containment. -/
def hasSub : List Char → List Char → Bool
  | [], n => n.isEmpty
  | c :: cs, n => leadsWith (c :: cs) n || hasSub cs n

/-- JavaScript `s.replace(/^pat/, repl)` for a literal pattern `pat`:
replace the anchored match once, or leave the string unchanged. -/
def replacePre (pat repl l : List Char) : List Char :=
  if leadsWith l pat then repl ++ l.drop pat.length else l

/-- Case-insensitive variant (for `/^vm:\/\//i`): the matched span keeps the
length of the pattern. -/
def replacePreCI (pat repl l : List Char) : List Char :=
  if leadsWithCI l pat then repl ++ l.drop pat.length else l

/-- JavaScript `s.split(sep)` for a single-character class separator:
`"a//b"` gives `["a", "", "b"]`, `""` gives `[""]`. -/
def splitChars (p : Char → Bool) : List Char → List (List Char)
  | [] => [[]]
  | c :: cs =>
    if p c then [] :: splitChars p cs
    else (c :: (splitChars p cs).headI) :: (splitChars p cs).tail

/-- `parts.join("/")` (with any separator character). -/
def joinSep (sep : Char) : List (List Char) → List Char
  | [] => []
  | [x] => x
  | x :: xs => x ++ sep :: joinSep sep xs

/-- The separator class `[/\\]` of `sanitizePath`'s split. -/
def isSepChar (c : Char) : Bool := c == '/' || c == '\\'

/-- The literal `'_up_'` marker `sanitizePath` pushes. -/
def upMarker : List Char := ['_', 'u', 'p', '_']

/-- One iteration of the `for (const part of parts)` loop of `sanitizePath`
(src/index.js lines 111-123): `'..'` pops when the accumulated result is
nonempty and its last segment differs from `'..'` (the literal comparison of
line 114), otherwise pushes the `'_up_'` marker; `'.'` and empty segments are
dropped; anything else is pushed. -/
def sanStep (acc : List (List Char)) (part : List Char) : List (List Char) :=
  if part = ['.', '.'] then
    match acc.getLast? with
    | some lastSeg => if lastSeg = ['.', '.'] then acc ++ [upMarker] else acc.dropLast
    | none => acc ++ [upMarker]
  else if part = ['.'] then acc
  else if part = [] then acc
  else acc ++ [part]

/-- The segment list `result` built by `sanitizePath` (src/index.js lines
104-123): strip leading forward slashes, split on `[/\\]`, fold the loop. -/
def sanitizeSegs (relPath : String) : List (List Char) :=
  (splitChars isSepChar (relPath.data.dropWhile (· == '/'))).foldl sanStep []

/-- `sanitizePath` (src/index.js lines 101-126): the early return for a falsy
argument, then `result.join(path.sep)` with the POSIX separator. -/
def sanitizePath (relPath : String) : String :=
  if relPath = "" then "" else ⟨joinSep '/' (sanitizeSegs relPath)⟩

/-- The segment stack of POSIX absolute-path normalization, as
`path.posix.resolve` builds it: empty and `.` segments are dropped, `..` pops
the stack (and is dropped at the root, where the stack is empty), anything
else is pushed. -/
def normStack : List (List Char) → List (List Char) → List (List Char)
  | acc, [] => acc
  | acc, seg :: rest =>
    if seg = [] then normStack acc rest
    else if seg = ['.'] then normStack acc rest
    else if seg = ['.', '.'] then normStack acc.dropLast rest
    else normStack (acc ++ [seg]) rest

/-- The normalized segment stack of a path string, split on `/`. -/
def stackOf (l : List Char) : List (List Char) :=
  normStack [] (splitChars (· == '/') l)

/-- `path.posix.resolve` of a single path that is (or is rooted to be)
absolute: `/` followed by the normalized segments. -/
def resolveAbsChars (l : List Char) : List Char :=
  '/' :: joinSep '/' (stackOf l)

/-- `path.posix.resolve(base, rel)` with `base` absolute (in the source,
`base` is always itself an output of `path.resolve`): an absolute `rel`
stands alone, otherwise the two are chained and normalized. -/
def resolveChain (base rel : List Char) : List Char :=
  if rel.head? = some '/' then resolveAbsChars rel
  else resolveAbsChars (base ++ '/' :: rel)

/-- `safePathJoin` (src/index.js lines 132-146). `cwd` stands for
`process.cwd()` (always an absolute path), through which
`path.resolve(baseDir)` resolves a relative `baseDir`. The thrown
`Unsafe path` error is modelled as `Except.error` carrying `relPath`; the
containment check is the literal
`(full + path.sep).startsWith(baseAbs + path.sep)` of lines 138-141. -/
def safePathJoin (cwd baseDir relPath : String) : Except String String :=
  let baseAbs := resolveChain cwd.data baseDir.data
  let sanitized := sanitizePath relPath
  let full := resolveChain baseAbs sanitized.data
  if leadsWith (full ++ ['/']) (baseAbs ++ ['/']) then Except.ok ⟨full⟩
  else Except.error relPath

/-- `s.replace(/[?#].*$/, "")`: the regex (no `m`, no `s` flag) matches at
the first `?` or `#` that has no later newline (`.*$` cannot cross `\n`), and
the match runs to the end of the string; with no such position the string is
unchanged. -/
def stripQF : List Char → List Char
  | [] => []
  | c :: cs =>
    if (c == '?' || c == '#') && !cs.contains '\n' then []
    else c :: stripQF cs

/-- `urlToFilesystemPath` (src/index.js lines 56-68): falsy input gives
`anonymous.js`; otherwise the anchored protocol replacements (in source
order, `vm` case-insensitive), the `https?://` strip, the query/fragment
strip, and the `|| "anonymous.js"` fallback for an empty result. -/
def urlToFilesystemPath (url : String) : String :=
  if url = "" then "anonymous.js"
  else
    let a := replacePre "webpack://".data "webpack/".data url.data
    let b := replacePre "rollup://".data "rollup/".data a
    let c := replacePre "file://".data "file/".data b
    let d := replacePreCI "vm://".data "vm/".data c
    let e :=
      if leadsWith d "https://".data then d.drop 8
      else if leadsWith d "http://".data then d.drop 7
      else d
    let f := stripQF e
    if f = [] then "anonymous.js" else ⟨f⟩

/-- `path.posix.basename(p)` (no extension argument): ignore trailing
slashes, then take what follows the last remaining slash. -/
def nodeBasename (l : List Char) : List Char :=
  (((l.reverse.dropWhile (· == '/')).takeWhile (fun c => !(c == '/'))).reverse)

/-- The segment stack of POSIX relative-path normalization
(`path.posix.normalize` on a relative path): like `normStack`, but a `..`
that cannot cancel a previous real segment is kept. -/
def relStack : List (List Char) → List (List Char) → List (List Char)
  | acc, [] => acc
  | acc, seg :: rest =>
    if seg = [] then relStack acc rest
    else if seg = ['.'] then relStack acc rest
    else if seg = ['.', '.'] then
      match acc.getLast? with
      | some t => if t = ['.', '.'] then relStack (acc ++ [seg]) rest else relStack acc.dropLast rest
      | none => relStack (acc ++ [seg]) rest
    else relStack (acc ++ [seg]) rest

/-- `path.posix.normalize`: normalized segments, with absoluteness and a
trailing slash preserved, and `.` (or `/`) for an empty result. -/
def posixNormalize (l : List Char) : List Char :=
  let isAbs := l.head? = some '/'
  let trail := l.getLast? = some '/'
  let segs :=
    if isAbs then normStack [] (splitChars (· == '/') l)
    else relStack [] (splitChars (· == '/') l)
  if segs = [] then
    if isAbs then ['/'] else if trail then ['.', '/'] else ['.']
  else
    (if isAbs then '/' :: joinSep '/' segs else joinSep '/' segs) ++
      (if trail then ['/'] else [])

/-- `path.posix.join(a, b)`: drop empty arguments, join with `/`, normalize;
`.` when nothing is left. -/
def posixJoin (a b : String) : String :=
  let parts := [a.data, b.data].filter (fun x => !x.isEmpty)
  match parts with
  | [] => "."
  | _ => ⟨posixNormalize (joinSep '/' parts)⟩

/-- The value `normalized` of `normalizeSourceFilePath` just before the
`path.basename` check (src/index.js lines 75-87): the three anchored
protocol replacements, one `./` strip, the `https?://` strip under its
test, and the leading-slash strip. -/
def stripSteps (l : List Char) : List Char :=
  let a := replacePre "webpack://".data "webpack/".data l
  let b := replacePre "rollup://".data "rollup/".data a
  let c := replacePre "file://".data "file/".data b
  let d := replacePre "./".data "".data c
  let e :=
    if leadsWith d "https://".data then d.drop 8
    else if leadsWith d "http://".data then d.drop 7
    else d
  e.dropWhile (· == '/')

/-- `stripSteps` as a `String` function (the spec calls this value the
path after protocol stripping and slash stripping). -/
def strippedOf (sourceFilePath : String) : String :=
  ⟨stripSteps sourceFilePath.data⟩

/-- `normalizeSourceFilePath` (src/index.js lines 74-95): the stripped value,
completed with `path.join(normalized, "index.txt")` when
`path.basename(normalized)` is empty. -/
def normalizeSourceFilePath (sourceFilePath : String) : String :=
  let normalized := stripSteps sourceFilePath.data
  if nodeBasename normalized = [] then posixJoin ⟨normalized⟩ "index.txt"
  else ⟨normalized⟩

/-- The configured constants of src/index.js lines 27 and 31. -/
def OUTPUT_DIR : String := "out"

def PATH_FILTERS : List String := ["/src/"]

/-- `matchesFilter` (src/index.js lines 40-42), with the filter list as an
explicit argument (the source reads the module constant `PATH_FILTERS`):
an empty list matches everything, otherwise some filter must be a substring
of the path. -/
def matchesFilter (filters : List String) (filePath : String) : Bool :=
  filters.isEmpty || filters.any (fun f => hasSub filePath.data f.data)

/-- The write guard of `extractOriginalSources` (src/index.js lines 337-339):
the entry is kept unless both the bare normalized path and its `/`-prefixed
form fail the filter. -/
def keepEntry (filters : List String) (normalizedPath : String) : Bool :=
  !(!matchesFilter filters normalizedPath &&
    !matchesFilter filters ("/" ++ normalizedPath))

/-- The test `/^https?:|^data:|^file:|^webpack:\/\//i.test(mapRef)` of
src/index.js line 219. -/
def looksAbsoluteRef (mapRef : String) : Bool :=
  leadsWithCI mapRef.data "http:".data || leadsWithCI mapRef.data "https:".data ||
    leadsWithCI mapRef.data "data:".data || leadsWithCI mapRef.data "file:".data ||
    leadsWithCI mapRef.data "webpack://".data

/-- `resolveSourceMapUrl` (src/index.js lines 217-233). `resolveURL r b`
models `new URL(r, b).toString()`: `some` on success, `none` when the
constructor throws (the `catch` of line 227 turns that into `null`, here
`none`). The middle branch is guarded by the literal
`scriptUrl.startsWith("http")` of line 224. -/
def resolveSourceMapUrl (resolveURL : String → String → Option String)
    (mapRef scriptUrl : String) : Option String :=
  if looksAbsoluteRef mapRef then some mapRef
  else if leadsWith scriptUrl.data "http".data then resolveURL mapRef scriptUrl
  else some mapRef

/-- Modelled from the spec of 4.4 for the refinement claim C6, word for
word: "if `scriptUrl` is itself an HTTP(S) URL, resolve `mapReference` as
relative to it". A string can only be an HTTP(S) URL if it begins with the
scheme `http://` or `https://`; this necessary condition is all the
counterexample needs, since the code already diverges on a string that
fails it. -/
def resolveSourceMapUrlSpec (resolveURL : String → String → Option String)
    (mapRef scriptUrl : String) : Option String :=
  if looksAbsoluteRef mapRef then some mapRef
  else if leadsWith scriptUrl.data "http://".data ||
      leadsWith scriptUrl.data "https://".data then
    resolveURL mapRef scriptUrl
  else some mapRef

/-- The amended reading of the spec sentence: the middle branch is taken
exactly when `scriptUrl` starts with the four characters `http`. -/
def resolveSourceMapUrlAmendedSpec (resolveURL : String → String → Option String)
    (mapRef scriptUrl : String) : Option String :=
  if looksAbsoluteRef mapRef then some mapRef
  else if leadsWith scriptUrl.data "http".data then resolveURL mapRef scriptUrl
  else some mapRef

/-- A JSON value as `JSON.parse` produces it, extended with `undefined` for the
`undefined` a failed property or index access yields. Numbers are carried as
integers (the sourcemap fields the code reads hold strings and arrays; no
claim depends on float arithmetic). -/
inductive JsonVal where
  | null
  | undefined
  | bool (b : Bool)
  | num (n : Int)
  | str (s : String)
  | arr (elems : List JsonVal)
  | obj (fields : List (String × JsonVal))

/-- JavaScript truthiness (falsy: `null`, `undefined`, `false`, `0`, `""`). -/
def jsFalsy : JsonVal → Bool
  | .null => true
  | .undefined => true
  | .bool b => !b
  | .num n => n == 0
  | .str s => s == ""
  | .arr _ => false
  | .obj _ => false

/-- The loose test `v != null` of src/index.js line 319: false exactly for
`null` and `undefined`. -/
def jsLooseNeqNull : JsonVal → Bool
  | .null => false
  | .undefined => false
  | _ => true

/-- Object field lookup; `JSON.parse` keeps the last of duplicate keys. -/
def lookupField (fields : List (String × JsonVal)) (name : String) : Option JsonVal :=
  fields.reverse.lookup name

/-- `v.name` for the property names the extractor reads (`sources`,
`sourcesContent`): a throw (modelled as `Except.error`) on `null` and
`undefined`, the field or `undefined` on objects, `undefined` on every other
value (these names are not built-ins of the primitive wrappers). -/
def jsField : JsonVal → String → Except String JsonVal
  | .null, name => .error ("TypeError: Cannot read properties of null (reading " ++ name ++ ")")
  | .undefined, name => .error ("TypeError: Cannot read properties of undefined (reading " ++ name ++ ")")
  | .obj fields, name => .ok ((lookupField fields name).getD .undefined)
  | _, _ => .ok .undefined

/-- `v || []` as applied on src/index.js lines 310-311. -/
def jsOrEmptyArr (v : JsonVal) : JsonVal :=
  if jsFalsy v then .arr [] else v

mutual

/-- `String(v)`: the JavaScript string conversion (arrays join their
converted elements with commas, `null` and `undefined` vanishing inside an
array; objects print as `[object Object]`). -/
def jsToString : JsonVal → String
  | .null => "null"
  | .undefined => "undefined"
  | .bool b => if b then "true" else "false"
  | .num n => toString n
  | .str s => s
  | .arr elems => String.intercalate "," (jsToStringElems elems)
  | .obj _ => "[object Object]"

def jsToStringElems : List JsonVal → List String
  | [] => []
  | .null :: vs => "" :: jsToStringElems vs
  | .undefined :: vs => "" :: jsToStringElems vs
  | v :: vs => jsToString v :: jsToStringElems vs
end

/-- `v[i]` for a numeric index: array element, string character, or the
`toString`-keyed field of an object; `undefined` past the end and on
primitives. -/
def jsIndex : JsonVal → Nat → JsonVal
  | .arr elems, i => (elems.get? i).getD .undefined
  | .str s, i =>
    match s.data.get? i with
    | some c => .str ⟨[c]⟩
    | none => .undefined
  | .obj fields, i => (lookupField fields (toString i)).getD .undefined
  | _, _ => .undefined

/-- The iteration count of `for (let i = 0; i < sources.length; i++)`:
array or string length, an integral `length` field of an object, and 0
otherwise (`i < undefined` is false). Exotic coercions of a non-numeric
`length` field are outside the model. -/
def jsLengthNat : JsonVal → Nat
  | .arr elems => elems.length
  | .str s => s.length
  | .obj fields =>
    match lookupField fields "length" with
    | some (.num n) => n.toNat
    | _ => 0
  | _ => 0

/-- The content choice for one source index (src/index.js lines 315-329).
`fetch u` models `await fetchUrl(u)` (`none` = the promise rejected, caught
on line 326); `resolveURL rel base` models
`new URL(rel, base).toString()` (`none` = the constructor threw, caught by
the same handler); `base` is the `sourceMapBaseUrl` of line 303 (by its
`href`; `none` = `null`). Result: the chosen `fileContent` (as text) and
the list of URLs passed to the network fetcher, in order. -/
def processEntry (fetch : String → Option String)
    (resolveURL : String → String → Option String)
    (base : Option String) (sourceFilePath : String) (scVal : JsonVal) :
    Option String × List String :=
  if jsLooseNeqNull scVal then (some (jsToString scVal), [])
  else
    match base with
    | some b =>
      match resolveURL sourceFilePath b with
      | some absoluteUrl => (fetch absoluteUrl, [absoluteUrl])
      | none => (none, [])
    | none => (none, [])

/-- One record of the script registry: `{ url, sourceMapURL }`, both
defaulted to `""` by the collector (src/index.js lines 374-381). -/
structure ScriptMeta where
  url : String
  sourceMapURL : String

/-- The body of the inner `for` loop of `extractOriginalSources`
(src/index.js lines 314-346) at index `i`, threading `savedCount`. The
filesystem write of lines 343-344 is modelled as the count increment (no
claim concerns `fs` failures); `normalizeSourceFilePath` is JavaScript
`String.prototype.replace` applied to `sources[i] || ""`, so a truthy
non-string element throws an uncaught `TypeError`, modelled as
`Except.error`. -/
def entryStep (fetch : String → Option String)
    (resolveURL : String → String → Option String)
    (filters : List String) (cwd : String) (base : Option String)
    (sources sourcesContent : JsonVal) (savedCount : Nat) (i : Nat) :
    Except String Nat :=
  let sourceFilePath := if jsFalsy (jsIndex sources i) then JsonVal.str "" else jsIndex sources i
  let chosen := processEntry fetch resolveURL base (jsToString sourceFilePath) (jsIndex sourcesContent i)
  match chosen.1 with
  | none => .ok savedCount
  | some _fileContent =>
    match sourceFilePath with
    | .str s =>
      let normalizedPath := normalizeSourceFilePath s
      if !matchesFilter filters normalizedPath &&
          !matchesFilter filters ("/" ++ normalizedPath) then
        .ok savedCount
      else
        match safePathJoin cwd OUTPUT_DIR normalizedPath with
        | .error e => .error e
        | .ok _destPath => .ok (savedCount + 1)
    | _ => .error "TypeError: sourceFilePath.replace is not a function"

/-- The body of the outer `for` loop of `extractOriginalSources`
(src/index.js lines 276-347) for one script record. `parse` models
`JSON.parse` (`none` = it threw, caught on line 298); `mkURL u` models
`new URL(u)` for the base-URL computation of lines 303-308 (`none` = it
threw, leaving the base `null`). The property reads
`sourceMap.sources` / `sourceMap.sourcesContent` of lines 310-311 stand
outside every `try`, so their `TypeError` (on a parsed `null`) escapes as
`Except.error`. -/
def scriptStep (fetch : String → Option String) (parse : String → Option JsonVal)
    (mkURL : String → Option String)
    (resolveURL : String → String → Option String)
    (filters : List String) (cwd : String) (savedCount : Nat) (m : ScriptMeta) :
    Except String Nat :=
  let scriptUrl := m.url
  let sourceMapReference := m.sourceMapURL
  if sourceMapReference = "" then .ok savedCount
  else
    match resolveSourceMapUrl resolveURL sourceMapReference scriptUrl with
    | none => .ok savedCount
    | some sourceMapUrl =>
      match fetch sourceMapUrl with
      | none => .ok savedCount
      | some body =>
        match parse body with
        | none => .ok savedCount
        | some sourceMap =>
          let sourceMapBaseUrl := mkURL sourceMapUrl
          match jsField sourceMap "sources" with
          | .error e => .error e
          | .ok rawSources =>
            match jsField sourceMap "sourcesContent" with
            | .error e => .error e
            | .ok rawContent =>
              let sources := jsOrEmptyArr rawSources
              let sourcesContent := jsOrEmptyArr rawContent
              (List.range (jsLengthNat sources)).foldlM
                (entryStep fetch resolveURL filters cwd sourceMapBaseUrl sources sourcesContent)
                savedCount

/-- `extractOriginalSources` (src/index.js lines 273-350): fold the script
records in registry order, threading `savedCount`; an uncaught exception in
a step aborts the run (`Except.error`). -/
def extractOriginalSources (fetch : String → Option String)
    (parse : String → Option JsonVal) (mkURL : String → Option String)
    (resolveURL : String → String → Option String)
    (filters : List String) (cwd : String) (scripts : List ScriptMeta) :
    Except String Nat :=
  scripts.foldlM (scriptStep fetch parse mkURL resolveURL filters cwd) 0

/-!
Theorems for the frozen claims. Concrete evaluations come first; the
universally quantified results and their supporting lemmas follow.
-/

/-- C3: the claim (and spec section 4.1) says a `..` segment pops only when
the accumulated result does not end in the `_up_` marker, so that
`sanitizePath "../../../etc/passwd"` keeps three markers. The code compares
the stack top against the literal `'..'` (which is never pushed; only
`'_up_'` is), so a later `..` pops an `_up_` marker: the second of three
leading `..` cancels the first marker, and the result carries one marker,
not three. `safePathJoin` accordingly resolves to `base/_up_/etc/passwd`. -/
theorem sanitizePath_marker_pop_concrete :
    sanitizePath "../../../etc/passwd" = "_up_/etc/passwd" ∧
      sanitizePath "../../../etc/passwd" ≠ "_up_/_up_/_up_/etc/passwd" ∧
      safePathJoin "/work" "out" "../../../etc/passwd" =
        Except.ok "/work/out/_up_/etc/passwd" := by
  refine ⟨by decide, by decide, by rfl⟩

/-- C2: a sourcemap whose fetched body is the five bytes `null` parses
successfully (`JSON.parse` yields `null`), and the uncaught property read
`sourceMap.sources` of line 310 then throws a `TypeError` that rejects the
whole run, contradicting the claim (and the propagation policy of spec
section 7) that `extractOriginalSources` always completes with a count. The
fetcher and parser parameters are instantiated with the real behaviour of
`fetchUrl` and `JSON.parse` on this input: the `data:` sourcemap reference
is returned unchanged by `resolveSourceMapUrl`, decoded to `null`, and
parsed to the JSON value `null`. -/
theorem extractOriginalSources_null_map_aborts :
    extractOriginalSources
      (fun u => if u = "data:application/json,null" then some "null" else none)
      (fun s => if s = "null" then some JsonVal.null else none)
      (fun u => some u) (fun _ _ => none) PATH_FILTERS "/home/user"
      [⟨"https://app.example/main.js", "data:application/json,null"⟩] =
      Except.error "TypeError: Cannot read properties of null (reading sources)" := by
  rfl

/-- C7: the claim (and the doc comment on src/index.js line 53) says
`urlToFilesystemPath "webpack://./src/index.js"` is `webpack/src/index.js`.
The function only replaces the anchored `webpack://` by `webpack/` and
strips nothing else, so the `./` survives: the result is
`webpack/./src/index.js`. -/
theorem urlToFilesystemPath_webpack_dot_concrete :
    urlToFilesystemPath "webpack://./src/index.js" = "webpack/./src/index.js" ∧
      urlToFilesystemPath "webpack://./src/index.js" ≠ "webpack/src/index.js" := by
  refine ⟨by decide, by decide⟩

/-- C1 counterexample: with a base directory that resolves to the
filesystem root, the defense-in-depth check fails and the `Unsafe path`
branch is taken: `baseAbs + path.sep` is `//` while the resolved full path
`/a` followed by the separator is `/a/`, which does not start with `//`.
So `safePathJoin` does not return a descendant for every base directory. -/
theorem safePathJoin_root_base_counterexample :
    safePathJoin "/home/user" "/" "a" = Except.error "a" := by
  rfl

/-- C5 counterexample: `normalizeSourceFilePath` strips only one leading
`./`, so its output for `"././x"` is `"./x"`, which a second application
shortens to `"x"`: the function is not idempotent on every string. -/
theorem normalizeSourceFilePath_idem_counterexample :
    normalizeSourceFilePath "././x" = "./x" ∧
      normalizeSourceFilePath (normalizeSourceFilePath "././x") = "x" ∧
      normalizeSourceFilePath (normalizeSourceFilePath "././x") ≠
        normalizeSourceFilePath "././x" := by
  refine ⟨by decide, by decide, by decide⟩

/-- C8 counterexample: for the input `"a/"` the stripped value ends in `/`,
yet no default filename is appended: `path.basename("a/")` is `"a"`
(trailing separators are ignored), so the basename check does not fire and
the function returns `"a/"` unchanged rather than `"a/index.txt"`. -/
theorem normalizeSourceFilePath_dir_counterexample :
    strippedOf "a/" = "a/" ∧ normalizeSourceFilePath "a/" = "a/" ∧
      normalizeSourceFilePath "a/" ≠ posixJoin (strippedOf "a/") "index.txt" := by
  refine ⟨by decide, by decide, by decide⟩

/-- C6 counterexample: the code and the spec sentence disagree on the
script URL `"httpfoo"`, which is not an HTTP(S) URL (no scheme separator)
yet satisfies `scriptUrl.startsWith("http")`. The code enters the resolve
branch, where `new URL("m", "httpfoo")` throws (no valid base URL), giving
`null`; the spec sentence returns the reference `"m"` unchanged. The
resolver parameter is instantiated with that real behaviour. -/
theorem resolveSourceMapUrl_httpfoo_counterexample :
    resolveSourceMapUrl (fun _ _ => none) "m" "httpfoo" = none ∧
      resolveSourceMapUrlSpec (fun _ _ => none) "m" "httpfoo" = some "m" ∧
      resolveSourceMapUrl (fun _ _ => none) "m" "httpfoo" ≠
        resolveSourceMapUrlSpec (fun _ _ => none) "m" "httpfoo" := by
  refine ⟨by decide, by decide, by decide⟩

/-- C4 counterexample: the claim says that with absent embedded content a
fetch is attempted if and only if a base URL exists. When the source path
is the string `"http://"`, `new URL("http://", base)` throws even though
the base exists, the `catch` of line 326 swallows the error, and no URL is
ever passed to the fetcher: the fetched-URL log is empty although the base
URL is present, refuting the if-and-only-if. -/
theorem processEntry_fetch_iff_counterexample :
    jsLooseNeqNull JsonVal.null = false ∧
      Option.isSome (some "https://cdn.test/app.js.map") = true ∧
      (processEntry (fun _ => some "content-B") (fun _ _ => none)
        (some "https://cdn.test/app.js.map") "http://" JsonVal.null).2 = [] := by
  refine ⟨rfl, rfl, rfl⟩

/-!
Supporting lemmas: the split/join/normalize toolbox used by the
universally quantified claims.
-/

lemma splitChars_ne_nil (p : Char → Bool) (l : List Char) : splitChars p l ≠ [] := by
  cases l with
  | nil => simp [splitChars]
  | cons c cs =>
    simp only [splitChars]
    split <;> simp

lemma splitChars_no_sep (p : Char → Bool) (l : List Char) :
    ∀ part ∈ splitChars p l, ∀ c ∈ part, p c = false := by
  induction l with
  | nil => simp [splitChars]
  | cons c cs ih =>
    intro part hpart d hd
    by_cases hc : p c = true
    · rw [splitChars, if_pos hc] at hpart
      rcases List.mem_cons.mp hpart with h | h
      · subst h; simp at hd
      · exact ih part h d hd
    · rw [splitChars, if_neg hc] at hpart
      rcases hsp : splitChars p cs with _ | ⟨h0, t0⟩
      · exact absurd hsp (splitChars_ne_nil p cs)
      · rw [hsp] at hpart
        simp only [List.headI_cons, List.tail_cons, List.mem_cons] at hpart
        rcases hpart with h | h
        · subst h
          rcases List.mem_cons.mp hd with h | h
          · subst h; simpa using hc
          · exact ih h0 (by rw [hsp]; exact List.mem_cons_self h0 t0) d h
        · exact ih part (by rw [hsp]; exact List.mem_cons_of_mem h0 h) d hd

lemma splitChars_of_no_sep (p : Char → Bool) (l : List Char)
    (h : ∀ c ∈ l, p c = false) : splitChars p l = [l] := by
  induction l with
  | nil => simp [splitChars]
  | cons c cs ih =>
    have hc : p c = false := h c (List.mem_cons_self c cs)
    have hcs := ih (fun d hd => h d (List.mem_cons_of_mem c hd))
    simp [splitChars, hc, hcs]

lemma splitChars_append_sep (p : Char → Bool) (c : Char) (hc : p c = true)
    (a b : List Char) :
    splitChars p (a ++ c :: b) = splitChars p a ++ splitChars p b := by
  induction a with
  | nil => simp [splitChars, hc]
  | cons d a ih =>
    by_cases hd : p d = true
    · simp [splitChars, hd, ih]
    · rw [List.cons_append, splitChars, if_neg hd, splitChars, if_neg hd, ih]
      rcases hsp : splitChars p a with _ | ⟨h0, t0⟩
      · exact absurd hsp (splitChars_ne_nil p a)
      · simp

lemma joinSep_cons_cons (sep : Char) (x y : List Char) (r : List (List Char)) :
    joinSep sep (x :: y :: r) = x ++ sep :: joinSep sep (y :: r) := by
  simp [joinSep]

lemma splitChars_joinSep (p : Char → Bool) (hp : p '/' = true)
    (segs : List (List Char)) (hne : segs ≠ [])
    (hs : ∀ seg ∈ segs, ∀ c ∈ seg, p c = false) :
    splitChars p (joinSep '/' segs) = segs := by
  induction segs with
  | nil => exact absurd rfl hne
  | cons x r ih =>
    cases r with
    | nil =>
      simpa [joinSep] using splitChars_of_no_sep p x (hs x (List.mem_cons_self x _))
    | cons y r2 =>
      rw [joinSep_cons_cons, splitChars_append_sep p '/' hp,
        splitChars_of_no_sep p x (hs x (List.mem_cons_self x _)),
        ih (by simp) (fun seg hseg => hs seg (List.mem_cons_of_mem x hseg))]
      simp

lemma normStack_append (acc l1 l2 : List (List Char)) :
    normStack acc (l1 ++ l2) = normStack (normStack acc l1) l2 := by
  induction l1 generalizing acc with
  | nil => simp [normStack]
  | cons seg rest ih =>
    simp only [List.cons_append, normStack]
    split
    · exact ih acc
    · split
      · exact ih acc
      · split
        · exact ih acc.dropLast
        · exact ih (acc ++ [seg])

lemma normStack_good (acc l : List (List Char))
    (h : ∀ seg ∈ l, seg ≠ [] ∧ seg ≠ ['.'] ∧ seg ≠ ['.', '.']) :
    normStack acc l = acc ++ l := by
  induction l generalizing acc with
  | nil => simp [normStack]
  | cons seg rest ih =>
    obtain ⟨h1, h2, h3⟩ := h seg (List.mem_cons_self seg rest)
    rw [normStack, if_neg h1, if_neg h2, if_neg h3,
      ih (acc ++ [seg]) (fun s hs => h s (List.mem_cons_of_mem seg hs))]
    simp

lemma normStack_mem (acc l : List (List Char)) (seg : List Char)
    (h : seg ∈ normStack acc l) :
    seg ∈ acc ∨ (seg ∈ l ∧ seg ≠ [] ∧ seg ≠ ['.'] ∧ seg ≠ ['.', '.']) := by
  induction l generalizing acc with
  | nil => exact Or.inl h
  | cons x rest ih =>
    simp only [normStack] at h
    split at h
    · rcases ih acc h with h | ⟨hm, hs⟩
      · exact Or.inl h
      · exact Or.inr ⟨List.mem_cons_of_mem x hm, hs⟩
    · split at h
      · rcases ih acc h with h | ⟨hm, hs⟩
        · exact Or.inl h
        · exact Or.inr ⟨List.mem_cons_of_mem x hm, hs⟩
      · split at h
        · rcases ih acc.dropLast h with h | ⟨hm, hs⟩
          · exact Or.inl (List.mem_of_mem_dropLast h)
          · exact Or.inr ⟨List.mem_cons_of_mem x hm, hs⟩
        · rcases ih (acc ++ [x]) h with h | ⟨hm, hs⟩
          · rcases List.mem_append.mp h with h | h
            · exact Or.inl h
            · rcases List.mem_singleton.mp h with rfl
              refine Or.inr ⟨List.mem_cons_self seg rest, ?_, ?_, ?_⟩ <;>
                simp_all
          · exact Or.inr ⟨List.mem_cons_of_mem x hm, hs⟩

/-- A segment `sanitizePath` may emit: nonempty, neither `.` nor `..`, and
free of both separator characters. -/
def goodSeg (s : List Char) : Prop :=
  s ≠ [] ∧ s ≠ ['.'] ∧ s ≠ ['.', '.'] ∧ ∀ c ∈ s, isSepChar c = false

lemma goodSeg_upMarker : goodSeg upMarker := by
  refine ⟨by decide, by decide, by decide, by decide⟩

lemma foldl_sanStep_mem (parts : List (List Char)) (acc : List (List Char))
    (hacc : ∀ s ∈ acc, goodSeg s)
    (hparts : ∀ part ∈ parts, ∀ c ∈ part, isSepChar c = false) :
    ∀ seg ∈ parts.foldl sanStep acc, goodSeg seg := by
  induction parts generalizing acc with
  | nil => simpa using hacc
  | cons part rest ih =>
    intro seg hseg
    rw [List.foldl_cons] at hseg
    refine ih (sanStep acc part) ?_
      (fun q hq => hparts q (List.mem_cons_of_mem part hq)) seg hseg
    intro s hs
    unfold sanStep at hs
    split at hs
    · split at hs
      · split at hs
        · rcases List.mem_append.mp hs with h | h
          · exact hacc s h
          · rcases List.mem_singleton.mp h with rfl; exact goodSeg_upMarker
        · exact hacc s (List.mem_of_mem_dropLast hs)
      · rcases List.mem_append.mp hs with h | h
        · exact hacc s h
        · rcases List.mem_singleton.mp h with rfl; exact goodSeg_upMarker
    · split at hs
      · exact hacc s hs
      · split at hs
        · exact hacc s hs
        · rcases List.mem_append.mp hs with h | h
          · exact hacc s h
          · rcases List.mem_singleton.mp h with rfl
            rename_i h1 h2 h3
            exact ⟨h3, h2, h1, hparts s (List.mem_cons_self s rest)⟩

lemma foldl_sanStep_good (parts acc : List (List Char))
    (h : ∀ part ∈ parts, part ≠ [] ∧ part ≠ ['.'] ∧ part ≠ ['.', '.']) :
    parts.foldl sanStep acc = acc ++ parts := by
  induction parts generalizing acc with
  | nil => simp
  | cons part rest ih =>
    obtain ⟨h1, h2, h3⟩ := h part (List.mem_cons_self part rest)
    rw [List.foldl_cons]
    have hstep : sanStep acc part = acc ++ [part] := by
      unfold sanStep
      rw [if_neg h3, if_neg h2, if_neg h1]
    rw [hstep, ih (acc ++ [part]) (fun q hq => h q (List.mem_cons_of_mem part hq))]
    simp

lemma sanitizeSegs_good (p : String) : ∀ seg ∈ sanitizeSegs p, goodSeg seg := by
  refine foldl_sanStep_mem _ [] (by simp) ?_
  intro part hpart c hc
  exact splitChars_no_sep isSepChar _ part hpart c hc

lemma joinSep_head_ne (x : List Char) (r : List (List Char)) (hx : x ≠ []) :
    (joinSep '/' (x :: r)).head? = x.head? := by
  cases r with
  | nil => simp [joinSep]
  | cons y r2 =>
    rw [joinSep_cons_cons]
    cases x with
    | nil => exact absurd rfl hx
    | cons c cs => simp

lemma mk_eq_empty_iff (l : List Char) : (⟨l⟩ : String) = "" ↔ l = [] := by
  constructor
  · intro h; exact congrArg String.data h
  · intro h; rw [h]

lemma sanitizePath_of_good_join (segs : List (List Char)) (hne : segs ≠ [])
    (hgood : ∀ s ∈ segs, goodSeg s) :
    sanitizePath ⟨joinSep '/' segs⟩ = ⟨joinSep '/' segs⟩ := by
  obtain ⟨x, r, rfl⟩ := List.exists_cons_of_ne_nil hne
  have hx : x ≠ [] := (hgood x (List.mem_cons_self x r)).1
  obtain ⟨c, cs, rfl⟩ := List.exists_cons_of_ne_nil hx
  have hcsep : isSepChar c = false := by
    exact (hgood (c :: cs) (List.mem_cons_self _ r)).2.2.2 c (List.mem_cons_self c cs)
  have hcslash : (c == '/') = false := by
    rcases Bool.or_eq_false_iff.mp hcsep with ⟨h1, _⟩
    exact h1
  have hdata : (⟨joinSep '/' ((c :: cs) :: r)⟩ : String).data = joinSep '/' ((c :: cs) :: r) := rfl
  have hne2 : (⟨joinSep '/' ((c :: cs) :: r)⟩ : String) ≠ "" := by
    rw [Ne, mk_eq_empty_iff]
    cases r with
    | nil => simp [joinSep]
    | cons y r2 => rw [joinSep_cons_cons]; simp
  rw [sanitizePath, if_neg hne2]
  have hdrop : (joinSep '/' ((c :: cs) :: r)).dropWhile (· == '/') =
      joinSep '/' ((c :: cs) :: r) := by
    cases r with
    | nil => simp [joinSep, List.dropWhile_cons, hcslash]
    | cons y r2 => rw [joinSep_cons_cons]; simp [List.dropWhile_cons, hcslash]
  have hsplit : splitChars isSepChar (joinSep '/' ((c :: cs) :: r)) = (c :: cs) :: r :=
    splitChars_joinSep isSepChar (by decide) _ (by simp)
      (fun seg hseg => (hgood seg hseg).2.2.2)
  have hfold : ((c :: cs) :: r).foldl sanStep [] = (c :: cs) :: r := by
    have := foldl_sanStep_good ((c :: cs) :: r) []
      (fun q hq => ⟨(hgood q hq).1, (hgood q hq).2.1, (hgood q hq).2.2.1⟩)
    simpa using this
  unfold sanitizeSegs
  rw [hdata, hdrop, hsplit, hfold]

/-- C10: every segment of a `sanitizePath` output is a real name: never
`..`, never `.`, never empty (the output as a whole may be the empty
string); and `sanitizePath` is idempotent. -/
theorem sanitizePath_segments_and_idem (p : String) :
    (sanitizePath p = "" ∨
      ∀ seg ∈ splitChars isSepChar (sanitizePath p).data,
        seg ≠ [] ∧ seg ≠ ['.'] ∧ seg ≠ ['.', '.']) ∧
      sanitizePath (sanitizePath p) = sanitizePath p := by
  by_cases hp : p = ""
  · subst hp
    refine ⟨Or.inl rfl, rfl⟩
  · rw [sanitizePath, if_neg hp]
    by_cases hs : sanitizeSegs p = []
    · rw [hs]
      refine ⟨Or.inl rfl, rfl⟩
    · have hgood := sanitizeSegs_good p
      constructor
      · refine Or.inr ?_
        intro seg hseg
        rw [show (⟨joinSep '/' (sanitizeSegs p)⟩ : String).data =
            joinSep '/' (sanitizeSegs p) from rfl,
          splitChars_joinSep isSepChar (by decide) _ hs
            (fun s hsm => (hgood s hsm).2.2.2)] at hseg
        exact ⟨(hgood seg hseg).1, (hgood seg hseg).2.1, (hgood seg hseg).2.2.1⟩
      · exact sanitizePath_of_good_join (sanitizeSegs p) hs hgood

lemma any_or_split (l : List String) (p q : String → Bool) :
    (l.any p || l.any q) = l.any fun x => p x || q x := by
  induction l with
  | nil => rfl
  | cons x xs ih =>
    simp only [List.any_cons]
    cases p x <;> cases q x <;> simp [← ih]

/-- C9: with the configured filter list `["/src/"]`, the normalized path
`example.com/lib/util.js` fails the filter in both checked forms while
`example.com/src/util.js` passes; an empty filter list keeps every path;
and for a nonempty filter list the write guard holds exactly when some
filter is a substring of the bare normalized path or of its `/`-prefixed
form. -/
theorem matchesFilter_semantics :
    matchesFilter PATH_FILTERS "example.com/lib/util.js" = false ∧
      matchesFilter PATH_FILTERS ("/" ++ "example.com/lib/util.js") = false ∧
      matchesFilter PATH_FILTERS "example.com/src/util.js" = true ∧
      (∀ p : String, matchesFilter [] p = true) ∧
      (∀ (f : String) (fs : List String) (np : String),
        keepEntry (f :: fs) np =
          ((f :: fs).any fun g =>
            hasSub np.data g.data || hasSub ("/" ++ np).data g.data)) := by
  refine ⟨by decide, by decide, by decide, fun p => rfl, ?_⟩
  intro f fs np
  have hguard : keepEntry (f :: fs) np =
      (matchesFilter (f :: fs) np || matchesFilter (f :: fs) ("/" ++ np)) := by
    unfold keepEntry
    rw [Bool.not_and, Bool.not_not, Bool.not_not]
  rw [hguard]
  unfold matchesFilter
  simp only [List.isEmpty_cons, Bool.false_or]
  exact any_or_split (f :: fs) _ _

/-- C6 (amended): `resolveSourceMapUrl` behaves as the spec sentence does
once its middle condition is read as the literal test of the code,
`scriptUrl.startsWith("http")`: an absolute-looking reference is returned
unchanged, a script URL with the `http` head delegates to URL resolution
(null on failure), and every remaining case returns the reference
unchanged. -/
theorem resolveSourceMapUrl_amended :
    (∀ (resolveURL : String → String → Option String) (mapRef scriptUrl : String),
      resolveSourceMapUrl resolveURL mapRef scriptUrl =
        resolveSourceMapUrlAmendedSpec resolveURL mapRef scriptUrl) ∧
    (∀ (resolveURL : String → String → Option String) (mapRef scriptUrl : String),
      looksAbsoluteRef mapRef = true →
        resolveSourceMapUrl resolveURL mapRef scriptUrl = some mapRef) ∧
    (∀ (resolveURL : String → String → Option String) (mapRef scriptUrl : String),
      looksAbsoluteRef mapRef = false →
        leadsWith scriptUrl.data "http".data = true →
        resolveSourceMapUrl resolveURL mapRef scriptUrl = resolveURL mapRef scriptUrl) ∧
    (∀ (resolveURL : String → String → Option String) (mapRef scriptUrl : String),
      looksAbsoluteRef mapRef = false →
        leadsWith scriptUrl.data "http".data = false →
        resolveSourceMapUrl resolveURL mapRef scriptUrl = some mapRef) := by
  refine ⟨fun r m u => rfl, ?_, ?_, ?_⟩
  · intro r m u h
    simp [resolveSourceMapUrl, h]
  · intro r m u h1 h2
    simp [resolveSourceMapUrl, h1, h2]
  · intro r m u h1 h2
    simp [resolveSourceMapUrl, h1, h2]

/-- C4 (amended): per source index, non-null embedded content is used
verbatim and the fetcher is never invoked for that index; with absent
content and no base URL the entry yields nothing and no fetch happens; with
absent content a fetch is attempted exactly when a base URL exists and the
URL resolution of the source path against it succeeds (the claim said
`if and only if a base URL exists`; `new URL` can throw under a present
base, see the counterexample); and an index at or past the end of the
`sourcesContent` array reads as absent. -/
theorem processEntry_precedence_amended (fetch : String → Option String)
    (resolveURL : String → String → Option String) (base : Option String)
    (sourceFilePath : String) (scVal : JsonVal) :
    (jsLooseNeqNull scVal = true →
      processEntry fetch resolveURL base sourceFilePath scVal =
        (some (jsToString scVal), [])) ∧
    (jsLooseNeqNull scVal = false → base = none →
      processEntry fetch resolveURL base sourceFilePath scVal = (none, [])) ∧
    (jsLooseNeqNull scVal = false →
      ((processEntry fetch resolveURL base sourceFilePath scVal).2 ≠ [] ↔
        ∃ b u, base = some b ∧ resolveURL sourceFilePath b = some u)) ∧
    (∀ (elems : List JsonVal) (i : Nat), elems.length ≤ i →
      jsLooseNeqNull (jsIndex (JsonVal.arr elems) i) = false) := by
  refine ⟨?_, ?_, ?_, ?_⟩
  · intro h
    simp [processEntry, h]
  · intro h1 h2
    simp [processEntry, h1, h2]
  · intro h
    cases base with
    | none => simp [processEntry, h]
    | some b =>
      cases hr : resolveURL sourceFilePath b with
      | none => simp [processEntry, h, hr]
      | some u => simp [processEntry, h, hr]
  · intro elems i hle
    simp [jsIndex, List.getElem?_eq_none hle, jsLooseNeqNull]

lemma sep_head_of_dropWhile (p : Char → Bool) (l : List Char) (c : Char)
    (h : (l.dropWhile p).head? = some c) : p c = false := by
  induction l with
  | nil => simp at h
  | cons d ds ih =>
    rw [List.dropWhile_cons] at h
    by_cases hd : p d = true
    · rw [if_pos hd] at h
      exact ih h
    · rw [if_neg hd] at h
      simp only [List.head?_cons, Option.some_inj] at h
      subst h
      exact Bool.not_eq_true _ ▸ (Bool.eq_false_iff.mpr hd)

lemma basename_nil_all_sep (l : List Char) (h : nodeBasename l = []) :
    ∀ c ∈ l, (c == '/') = true := by
  unfold nodeBasename at h
  rw [List.reverse_eq_nil_iff] at h
  rcases hd : (l.reverse.dropWhile (· == '/')) with _ | ⟨x, xs⟩
  · rw [List.dropWhile_eq_nil_iff] at hd
    intro c hc
    exact hd c (List.mem_reverse.mpr hc)
  · exfalso
    rw [hd, List.takeWhile_cons] at h
    have hx : (x == '/') = false :=
      sep_head_of_dropWhile _ l.reverse x (by rw [hd]; rfl)
    rw [hx] at h
    simp at h

lemma basename_ne_nil_of_head (l : List Char) (hne : l ≠ [])
    (hh : ∀ c, l.head? = some c → (c == '/') = false) :
    nodeBasename l ≠ [] := by
  intro hb
  obtain ⟨c, cs, rfl⟩ := List.exists_cons_of_ne_nil hne
  have h1 := basename_nil_all_sep _ hb c (List.mem_cons_self c cs)
  have h2 := hh c rfl
  rw [h1] at h2
  exact absurd h2 (by simp)

lemma stripSteps_head_not_slash (l : List Char) :
    ∀ c, (stripSteps l).head? = some c → (c == '/') = false := by
  intro c h
  unfold stripSteps at h
  exact sep_head_of_dropWhile _ _ c h

lemma basename_normalize_ne_nil (p : String) :
    nodeBasename (normalizeSourceFilePath p).data ≠ [] := by
  by_cases hb : nodeBasename (stripSteps p.data) = []
  · have hn : stripSteps p.data = [] := by
      rcases hs : stripSteps p.data with _ | ⟨c, cs⟩
      · rfl
      · exfalso
        have h1 := basename_nil_all_sep _ (hs ▸ hb) c (List.mem_cons_self c cs)
        have h2 := stripSteps_head_not_slash p.data c (by rw [hs]; rfl)
        rw [h1] at h2
        exact absurd h2 (by simp)
    unfold normalizeSourceFilePath
    rw [hn]
    decide
  · unfold normalizeSourceFilePath
    rw [if_neg hb]
    exact hb

/-- C8 (amended): the default filename is appended exactly when the value
after protocol stripping and slash stripping is the empty string (then the
result is `index.txt`); any other stripped value, a value ending in `/`
included, is returned unchanged, because `path.basename` ignores trailing
separators; in every case the returned path has a non-empty basename in
that same `path.basename` sense. -/
theorem normalizeSourceFilePath_completion_amended (p : String) :
    normalizeSourceFilePath p =
      (if strippedOf p = "" then "index.txt" else strippedOf p) ∧
    (nodeBasename (normalizeSourceFilePath p).data).isEmpty = false := by
  constructor
  · by_cases hn : stripSteps p.data = []
    · have hstr : strippedOf p = "" := by
        unfold strippedOf
        rw [hn]
      rw [hstr, if_pos rfl]
      unfold normalizeSourceFilePath
      rw [hn]
      decide
    · have hstr : strippedOf p ≠ "" := by
        unfold strippedOf
        rw [Ne, mk_eq_empty_iff]
        exact hn
      rw [if_neg hstr]
      unfold normalizeSourceFilePath strippedOf
      rw [if_neg (basename_ne_nil_of_head _ hn (stripSteps_head_not_slash p.data))]
  · have h := basename_normalize_ne_nil p
    rcases hs : nodeBasename (normalizeSourceFilePath p).data with _ | ⟨c, cs⟩
    · exact absurd hs h
    · rfl

lemma replacePre_of_false (pat repl l : List Char) (h : leadsWith l pat = false) :
    replacePre pat repl l = l := by
  simp [replacePre, h]

lemma dropWhile_slash_of_no_lead (l : List Char) (h : leadsWith l ['/'] = false) :
    l.dropWhile (· == '/') = l := by
  cases l with
  | nil => rfl
  | cons c cs =>
    rw [leadsWith] at h
    rcases Bool.and_eq_false_iff.mp h with h | h
    · rw [List.dropWhile_cons, if_neg (by simp [h])]
    · exact absurd h (by simp [leadsWith])

lemma stripSteps_fix (l : List Char)
    (h1 : leadsWith l "webpack://".data = false)
    (h2 : leadsWith l "rollup://".data = false)
    (h3 : leadsWith l "file://".data = false)
    (h4 : leadsWith l "./".data = false)
    (h5 : leadsWith l "https://".data = false)
    (h6 : leadsWith l "http://".data = false)
    (h7 : leadsWith l ['/'] = false) :
    stripSteps l = l := by
  simp only [stripSteps, replacePre_of_false _ _ _ h1, replacePre_of_false _ _ _ h2,
    replacePre_of_false _ _ _ h3, replacePre_of_false _ _ _ h4, h5, h6,
    Bool.false_eq_true, if_false, dropWhile_slash_of_no_lead l h7]

/-- C5 (amended): `normalizeSourceFilePath` is a fixed point operator on
its own outputs whenever the output carries no residual anchored pattern
the function still reacts to: no protocol head (`webpack://`, `rollup://`,
`file://`, `http://`, `https://`), no leading `./` and no leading slash.
(The unrestricted claim fails: a leading `./` or a doubled scheme survives
one pass and is consumed by the next, see the counterexample.) -/
theorem normalizeSourceFilePath_idem_amended (p : String)
    (h1 : leadsWith (normalizeSourceFilePath p).data "webpack://".data = false)
    (h2 : leadsWith (normalizeSourceFilePath p).data "rollup://".data = false)
    (h3 : leadsWith (normalizeSourceFilePath p).data "file://".data = false)
    (h4 : leadsWith (normalizeSourceFilePath p).data "./".data = false)
    (h5 : leadsWith (normalizeSourceFilePath p).data "https://".data = false)
    (h6 : leadsWith (normalizeSourceFilePath p).data "http://".data = false)
    (h7 : leadsWith (normalizeSourceFilePath p).data ['/'] = false) :
    normalizeSourceFilePath (normalizeSourceFilePath p) = normalizeSourceFilePath p := by
  have hfix : stripSteps (normalizeSourceFilePath p).data = (normalizeSourceFilePath p).data :=
    stripSteps_fix _ h1 h2 h3 h4 h5 h6 h7
  have hgen : ∀ q : String, stripSteps q.data = q.data → nodeBasename q.data ≠ [] →
      normalizeSourceFilePath q = q := by
    intro q hf hb
    simp only [normalizeSourceFilePath]
    rw [hf, if_neg hb]
  exact hgen _ hfix (basename_normalize_ne_nil p)

/-- Witness for C5 (amended) at the concrete normalized path `a.js`. -/
theorem normalizeSourceFilePath_idem_amended_witness :
    normalizeSourceFilePath (normalizeSourceFilePath "a.js") =
      normalizeSourceFilePath "a.js" :=
  normalizeSourceFilePath_idem_amended "a.js" (by decide) (by decide) (by decide)
    (by decide) (by decide) (by decide) (by decide)

lemma leadsWith_nil (l : List Char) : leadsWith l [] = true := by
  cases l <;> rfl

lemma leadsWith_append (a b : List Char) : leadsWith (a ++ b) a = true := by
  induction a with
  | nil => exact leadsWith_nil b
  | cons c cs ih => simp [leadsWith, ih]

lemma leadsWith_refl (l : List Char) : leadsWith l l = true := by
  have h := leadsWith_append l []
  rwa [List.append_nil] at h

lemma joinSep_append (st ss : List (List Char)) (h1 : st ≠ []) (h2 : ss ≠ []) :
    joinSep '/' (st ++ ss) = joinSep '/' st ++ '/' :: joinSep '/' ss := by
  induction st with
  | nil => exact absurd rfl h1
  | cons x r ih =>
    cases r with
    | nil =>
      obtain ⟨y, ss2, rfl⟩ := List.exists_cons_of_ne_nil h2
      rw [List.singleton_append, joinSep_cons_cons]
      simp [joinSep]
    | cons z r2 =>
      have ih2 := ih (by simp)
      simp only [List.cons_append] at ih2 ⊢
      rw [joinSep_cons_cons, joinSep_cons_cons '/' x z r2, ih2]
      simp

lemma goodSeg_no_slash (s : List Char) (h : goodSeg s) :
    ∀ c ∈ s, (c == '/') = false := by
  intro c hc
  exact (Bool.or_eq_false_iff.mp (h.2.2.2 c hc)).1

lemma stackOf_mem_good (l : List Char) :
    ∀ seg ∈ stackOf l,
      seg ≠ [] ∧ seg ≠ ['.'] ∧ seg ≠ ['.', '.'] ∧ ∀ c ∈ seg, (c == '/') = false := by
  intro seg hseg
  rcases normStack_mem [] _ seg hseg with h | ⟨hm, hs⟩
  · simp at h
  · exact ⟨hs.1, hs.2.1, hs.2.2,
      fun c hc => splitChars_no_sep _ l seg hm c hc⟩

lemma stackOf_resolveAbsChars (l : List Char) :
    stackOf (resolveAbsChars l) = stackOf l := by
  rcases hst : stackOf l with _ | ⟨x, r⟩
  · unfold resolveAbsChars
    rw [hst]
    rfl
  · have hgood : ∀ s ∈ x :: r,
        s ≠ [] ∧ s ≠ ['.'] ∧ s ≠ ['.', '.'] ∧ ∀ c ∈ s, (c == '/') = false :=
      fun s hs => stackOf_mem_good l s (hst ▸ hs)
    unfold resolveAbsChars
    rw [hst]
    unfold stackOf
    have hsplithead : splitChars (· == '/') ('/' :: joinSep '/' (x :: r)) =
        [] :: splitChars (· == '/') (joinSep '/' (x :: r)) := by
      simp [splitChars]
    rw [hsplithead,
      splitChars_joinSep _ rfl (x :: r) (by simp)
        (fun seg hseg => (hgood seg hseg).2.2.2),
      show normStack [] ([] :: x :: r) = normStack [] (x :: r) from by
        rw [normStack, if_pos rfl],
      normStack_good [] (x :: r)
        (fun s hs => ⟨(hgood s hs).1, (hgood s hs).2.1, (hgood s hs).2.2.1⟩)]
    simp

/-- C1 (amended): for every base directory whose resolved absolute form is
not the filesystem root `/`, and every input string (any mix of `../`,
leading slashes, backslashes, `.` and empty segments), `safePathJoin`
returns an absolute path that is the resolved base itself or a strict
descendant of it (the base followed by the separator is a leading piece of
it), and the `Unsafe path` branch is not taken. `cwd` is the process
working directory, absolute as `process.cwd()` guarantees. (For a base
resolving to `/` itself the check misfires, see the counterexample.) -/
theorem safePathJoin_descends_amended (cwd baseDir relPath : String)
    (_hcwd : leadsWith cwd.data ['/'] = true)
    (hroot : resolveChain cwd.data baseDir.data ≠ ['/']) :
    ∃ full : List Char,
      safePathJoin cwd baseDir relPath = Except.ok ⟨full⟩ ∧
      full.head? = some '/' ∧
      (full = resolveChain cwd.data baseDir.data ∨
        leadsWith full (resolveChain cwd.data baseDir.data ++ ['/']) = true) := by
  have hbshape : ∃ t, resolveChain cwd.data baseDir.data = resolveAbsChars t := by
    unfold resolveChain
    by_cases h : baseDir.data.head? = some '/'
    · rw [if_pos h]; exact ⟨_, rfl⟩
    · rw [if_neg h]; exact ⟨_, rfl⟩
  obtain ⟨t, ht⟩ := hbshape
  rw [show safePathJoin cwd baseDir relPath =
      (if leadsWith
          (resolveChain (resolveChain cwd.data baseDir.data)
              (sanitizePath relPath).data ++ ['/'])
          (resolveChain cwd.data baseDir.data ++ ['/'])
        then Except.ok
          ⟨resolveChain (resolveChain cwd.data baseDir.data)
              (sanitizePath relPath).data⟩
        else Except.error relPath) from rfl]
  set B := resolveChain cwd.data baseDir.data with hB
  have hbform : B = '/' :: joinSep '/' (stackOf t) := by rw [ht]; rfl
  have hstackBase : stackOf B = stackOf t := by
    rw [ht]; exact stackOf_resolveAbsChars t
  have hstne : stackOf t ≠ [] := by
    intro h
    exact hroot (by rw [hbform, h]; rfl)
  obtain ⟨ss, hss, hgood⟩ :
      ∃ ss, (sanitizePath relPath).data = joinSep '/' ss ∧ ∀ s ∈ ss, goodSeg s := by
    by_cases hp : relPath = ""
    · refine ⟨[], ?_, by simp⟩
      rw [hp]; rfl
    · refine ⟨sanitizeSegs relPath, ?_, sanitizeSegs_good relPath⟩
      rw [sanitizePath, if_neg hp]
  have hsanhead : (sanitizePath relPath).data.head? ≠ some '/' := by
    rw [hss]
    cases ss with
    | nil => simp [joinSep]
    | cons x r =>
      have hx : x ≠ [] := (hgood x (List.mem_cons_self x r)).1
      rw [joinSep_head_ne x r hx]
      obtain ⟨c, cs, rfl⟩ := List.exists_cons_of_ne_nil hx
      have hc : (c == '/') = false :=
        (Bool.or_eq_false_iff.mp
          ((hgood _ (List.mem_cons_self _ r)).2.2.2 c (List.mem_cons_self c cs))).1
      intro hcon
      simp only [List.head?_cons, Option.some_inj] at hcon
      subst hcon
      simp at hc
  have hfullshape : resolveChain B (sanitizePath relPath).data =
      resolveAbsChars (B ++ '/' :: (sanitizePath relPath).data) := by
    rw [resolveChain, if_neg hsanhead]
  have hstackFull : stackOf (B ++ '/' :: (sanitizePath relPath).data) =
      normStack (stackOf t) (splitChars (· == '/') (sanitizePath relPath).data) := by
    unfold stackOf
    rw [splitChars_append_sep _ '/' rfl B (sanitizePath relPath).data, normStack_append]
    rw [show normStack [] (splitChars (· == '/') B) = stackOf t from hstackBase]
    rfl
  by_cases hssnil : ss = []
  · subst hssnil
    have hsan_nil : (sanitizePath relPath).data = [] := by rw [hss]; rfl
    have hfull : resolveChain B (sanitizePath relPath).data = B := by
      rw [hfullshape]
      unfold resolveAbsChars
      rw [hstackFull, hsan_nil]
      rw [show splitChars (· == '/') ([] : List Char) = [[]] from rfl]
      rw [show normStack (stackOf t) [[]] = stackOf t from by
        rw [normStack, if_pos rfl, normStack]]
      exact hbform.symm
    rw [hfull, if_pos (leadsWith_refl (B ++ ['/']))]
    exact ⟨B, rfl, by rw [hbform]; rfl, Or.inl rfl⟩
  · have hsplit_ss : splitChars (· == '/') (sanitizePath relPath).data = ss := by
      rw [hss]
      exact splitChars_joinSep _ rfl ss hssnil
        (fun seg hseg => goodSeg_no_slash seg (hgood seg hseg))
    have hstackF2 : stackOf (B ++ '/' :: (sanitizePath relPath).data) =
        stackOf t ++ ss := by
      rw [hstackFull, hsplit_ss]
      exact normStack_good _ ss
        (fun s hs => ⟨(hgood s hs).1, (hgood s hs).2.1, (hgood s hs).2.2.1⟩)
    have hfull : resolveChain B (sanitizePath relPath).data =
        (B ++ ['/']) ++ joinSep '/' ss := by
      rw [hfullshape]
      unfold resolveAbsChars
      rw [show stackOf (B ++ '/' :: (sanitizePath relPath).data) = stackOf t ++ ss
        from hstackF2]
      rw [joinSep_append _ _ hstne hssnil, hbform]
      simp
    rw [hfull]
    have hcond : leadsWith (((B ++ ['/']) ++ joinSep '/' ss) ++ ['/']) (B ++ ['/']) = true := by
      rw [List.append_assoc (B ++ ['/'])]
      exact leadsWith_append (B ++ ['/']) _
    rw [if_pos hcond]
    refine ⟨(B ++ ['/']) ++ joinSep '/' ss, rfl, ?_, Or.inr ?_⟩
    · rw [hbform]
      rfl
    · exact leadsWith_append (B ++ ['/']) _

/-- Witness for C1 (amended): working directory `/home/user`, base directory
`out`, traversal input `../../../etc/passwd`. -/
theorem safePathJoin_descends_amended_witness :
    ∃ full : List Char,
      safePathJoin "/home/user" "out" "../../../etc/passwd" = Except.ok ⟨full⟩ ∧
      full.head? = some '/' ∧
      (full = resolveChain "/home/user".data "out".data ∨
        leadsWith full (resolveChain "/home/user".data "out".data ++ ['/']) = true) :=
  safePathJoin_descends_amended "/home/user" "out" "../../../etc/passwd"
    (by decide) (by decide)
